import Mathlib

/-!
Verification of the source-splitting tool in `src/main.rs`.

The program reads one Rust file, parses it with `syn`, buckets the top-level
items (imports / functions / the `main` function / other items), classifies
each non-`main` function by the imports its body references, groups the
functions, writes one module file per retained group, and finally writes a
reassembled `tmp_main.rs`.

The embedding below mirrors the Rust data flow:
* `UseTree`, `Expr`, `Item` are the fragment of the `syn` AST the program
  inspects.  A `FnDef` carries both the expression bodies (what the
  `CrateUsageVisitor` walks after the function text is re-parsed) and the
  rendered text (`item_to_string`), since the program stores the text and
  re-parses it; re-parsing is modelled as recovering `body` from `text`.
* `ingest` is the loop over `syntax_tree.items` (main.rs lines 50-73).
* `computeUsedCrates` is the `CrateUsageVisitor` run by `visit_item_fn`
  (lines 16-26 and 80-88).
* `classify` is the grouping loop (lines 89-105).
* `emitGroups` is the per-group output loop (lines 111-149), and
  `pipeline` adds the `tmp_main.rs` assembly (lines 152-187).
* Rust `HashMap`s are modelled as association lists with overwrite
  (`mapInsert`), and `HashSet` as a duplicate-free list (`insertNew`).
  `HashMap` iteration order is not specified, so the classification loop
  takes the iteration order as an explicit `order` parameter; a real run
  corresponds to some permutation of the ingested function map.
* Written files are modelled as lists of `Chunk`s, the pieces the program
  concatenates (the external `rustfmt` rewrites whitespace only).
-/

namespace Refactor

/-- Mirrors `syn::UseTree`: the shape of the tree inside a `use` item. -/
inductive UseTree where
  | path (ident : String) (rest : UseTree)
  | name (ident : String)
  | rename (ident renamed : String)
  | glob
  | group (trees : List UseTree)

/-- The fragment of `syn::Expr` relevant to `CrateUsageVisitor`: path
expressions (`syn::ExprPath`, a list of `::`-separated segments) possibly
nested inside calls, binary operators, conditionals and closures. -/
inductive Expr where
  | pathE (segments : List String)
  | call (callee arg : Expr)
  | binop (lhs rhs : Expr)
  | ifE (cond thenBr elseBr : Expr)
  | closure (body : Expr)
  | lit
deriving DecidableEq

/-- A parsed function: its statement/expression bodies and its
`item_to_string` text.  The program stores only the text and re-parses it
before visiting; `body` is that re-parse. -/
structure FnDef where
  body : List Expr
  text : String
deriving DecidableEq

/-- A top-level item of the parsed file, as matched at main.rs lines 50-72. -/
inductive Item where
  | useItem (tree : UseTree) (text : String)
  | fnItem (fname : String) (d : FnDef)
  | otherItem (text : String)

/-- Association-list model of `HashMap` insert: overwrite the binding for
`k` if present, otherwise append it. -/
def mapInsert {α : Type} (k : String) (v : α) : List (String × α) → List (String × α)
  | [] => [(k, v)]
  | (k2, v2) :: rest => if k2 = k then (k, v) :: rest else (k2, v2) :: mapInsert k v rest

/-- Association-list model of `HashMap::get`. -/
def mapLookup {α : Type} (k : String) : List (String × α) → Option α
  | [] => none
  | (k2, v2) :: rest => if k2 = k then some v2 else mapLookup k rest

/-- Model of `HashMap::contains_key`. -/
def mapContains {α : Type} (k : String) (m : List (String × α)) : Bool :=
  (mapLookup k m).isSome

/-- Model of `HashSet::insert`: add `x` unless already present. -/
def insertNew (s : List String) (x : String) : List String :=
  if x ∈ s then s else s ++ [x]

/-- All path expressions reachable in an expression, in visit order: the
structural walk `syn::visit` performs, reaching nested positions. -/
def collectPaths : Expr → List (List String)
  | .pathE segs => [segs]
  | .call f a => collectPaths f ++ collectPaths a
  | .binop a b => collectPaths a ++ collectPaths b
  | .ifE c t e => collectPaths c ++ collectPaths t ++ collectPaths e
  | .closure b => collectPaths b
  | .lit => []

/-- One `visit_expr_path` call (main.rs lines 17-25): take the path's first
segment, look it up in `imported_functions`; on a hit, insert the value
found there (the import's rendered statement text) into `used_crates`. -/
def visitPath (table : List (String × String)) (used : List String)
    (segments : List String) : List String :=
  match segments with
  | [] => used
  | seg :: _ =>
    match mapLookup seg table with
    | some stmt => insertNew used stmt
    | none => used

/-- The full `CrateUsageVisitor` run over a function body
(`visit_item_fn`, main.rs lines 80-88): visit every reachable path
expression and accumulate `used_crates`. -/
def computeUsedCrates (table : List (String × String)) (body : List Expr) : List String :=
  (body.foldl (fun acc e => acc ++ collectPaths e) []).foldl (visitPath table) []

/-- The four buckets filled by the ingestion loop (main.rs lines 45-48). -/
structure Ingest where
  imported_functions : List (String × String)
  functions : List (String × FnDef)
  main_function : Option String
  other_items : List String
deriving DecidableEq

/-- One iteration of the ingestion loop (main.rs lines 50-73): a `use`
item whose tree is `UseTree::Path` is recorded under its root ident; any
other `use` tree is ignored; a function named `main` becomes the entry
function; other functions go into the function map; everything else is
appended to `other_items`. -/
def ingestItem (st : Ingest) : Item → Ingest
  | .useItem tree text =>
    match tree with
    | .path ident _ =>
      { st with imported_functions := mapInsert ident text st.imported_functions }
    | _ => st
  | .fnItem fname d =>
    if fname = "main" then { st with main_function := some d.text }
    else { st with functions := mapInsert fname d st.functions }
  | .otherItem text => { st with other_items := st.other_items ++ [text] }

def ingest (items : List Item) : Ingest :=
  items.foldl ingestItem
    { imported_functions := [], functions := [], main_function := none, other_items := [] }

/-- State of the grouping loop (main.rs lines 76-78). -/
structure GroupState where
  grouped_functions : List (String × List (String × String))
  group_imports : List (String × List String)
  group_counter : Nat
deriving DecidableEq

/-- Model of `grouped_functions.entry(key).or_default().push(mem)`. -/
def pushMember (key : String) (mem : String × String) :
    List (String × List (String × String)) → List (String × List (String × String))
  | [] => [(key, [mem])]
  | (k, ms) :: rest =>
    if k = key then (k, ms ++ [mem]) :: rest else (k, ms) :: pushMember key mem rest

/-- Model of `group_imports.entry(key).or_default().extend(xs)`. -/
def extendSet (key : String) (xs : List String) :
    List (String × List String) → List (String × List String)
  | [] => [(key, xs.foldl insertNew [])]
  | (k, s) :: rest =>
    if k = key then (k, xs.foldl insertNew s) :: rest else (k, s) :: extendSet key xs rest

/-- One iteration of the grouping loop (main.rs lines 80-105): compute the
function's `used_crates`; pick `"group_<counter>"` when that set is
non-empty and `"general"` otherwise; in the non-empty branch bump the
counter when the key is not yet a group; push the function into the group
and extend the group's import set. -/
def classifyStep (table : List (String × String)) (st : GroupState)
    (f : String × FnDef) : GroupState :=
  let used_crates := computeUsedCrates table f.2.body
  let group_name :=
    if used_crates ≠ [] then "group_" ++ toString st.group_counter else "general"
  if used_crates = [] then
    { st with
      grouped_functions := pushMember group_name (f.1, f.2.text) st.grouped_functions,
      group_imports := extendSet group_name used_crates st.group_imports }
  else
    let counter2 :=
      if mapContains group_name st.grouped_functions then st.group_counter
      else st.group_counter + 1
    { grouped_functions := pushMember group_name (f.1, f.2.text) st.grouped_functions,
      group_imports := extendSet group_name used_crates st.group_imports,
      group_counter := counter2 }

/-- The grouping loop over the function map, in the iteration order `order`
(the `HashMap` iteration order of a concrete run). -/
def classify (table : List (String × String)) (order : List (String × FnDef)) : GroupState :=
  order.foldl (classifyStep table)
    { grouped_functions := [], group_imports := [], group_counter := 1 }

/-- `sanitize_filename` (main.rs lines 215-217). -/
def sanitize_filename (s : String) : String :=
  String.mk (s.data.filter (fun c => c.isAlphanum || c = '_'))

/-- A piece of an assembled output file, in concatenation order.  The
external `rustfmt` pass only re-lays out text, so files are modelled at
this granularity. -/
inductive Chunk where
  | preamble
  | importChunk (text : String)
  | fnChunk (fname : String) (code : String)
  | otherChunk (text : String)
  | modDecl (module_name : String)
  | useDecl (module_name : String)
  | entryChunk (code : String)
deriving DecidableEq

/-- A module file body (main.rs lines 120-140): the `use crate::*;`
preamble, then for each entry of the group's import set the value found by
looking it up in `imported_functions` (entries with no hit contribute
nothing), then the member function bodies in insertion order. -/
def moduleBody (table : List (String × String)) (gimports : List String)
    (funcs : List (String × String)) : List Chunk :=
  let importChunks := gimports.foldl (fun acc imp =>
    match mapLookup imp table with
    | some import_code => acc ++ [Chunk.importChunk import_code]
    | none => acc) []
  Chunk.preamble :: (importChunks ++ funcs.map (fun f => Chunk.fnChunk f.1 f.2))

/-- Accumulated results of the per-group output loop. -/
structure Emission where
  files : List (String × List Chunk)
  mod_declarations : List String
  use_statements : List String
deriving DecidableEq

/-- One iteration of the per-group output loop (main.rs lines 111-149):
skip the `"general"` group when it holds every function; otherwise write
`<sanitized>_mod.rs` and record the module declaration and re-export. -/
def emitStep (table : List (String × String)) (fnCount : Nat)
    (gimps : List (String × List String)) (em : Emission)
    (g : String × List (String × String)) : Emission :=
  if g.1 = "general" ∧ g.2.length = fnCount then em
  else
    let module_name := sanitize_filename g.1 ++ "_mod"
    let gimports := (mapLookup g.1 gimps).getD []
    { files := em.files ++ [(module_name ++ ".rs", moduleBody table gimports g.2)],
      mod_declarations := em.mod_declarations ++ [module_name],
      use_statements := em.use_statements ++ [module_name] }

/-- The whole per-group output loop. -/
def emitGroups (table : List (String × String)) (fnCount : Nat) (gs : GroupState) : Emission :=
  gs.grouped_functions.foldl (emitStep table fnCount gs.group_imports)
    { files := [], mod_declarations := [], use_statements := [] }

/-- The `tmp_main.rs` body (main.rs lines 152-181): all import-table
values, then the other items, then `pub mod` declarations, then `pub use`
re-exports, then the `main` function text last. -/
def entryChunks (ing : Ingest) (em : Emission) (mainCode : String) : List Chunk :=
  (ing.imported_functions.map (fun p => Chunk.importChunk p.2))
    ++ (ing.other_items.map Chunk.otherChunk)
    ++ (em.mod_declarations.map Chunk.modDecl)
    ++ (em.use_statements.map Chunk.useDecl)
    ++ [Chunk.entryChunk mainCode]

/-- Everything a run writes: the module files, and `tmp_main.rs` when the
input had a `main` function (the `if let Some(main_func)` at line 152). -/
structure Output where
  moduleFiles : List (String × List Chunk)
  entryFile : Option (List Chunk)
deriving DecidableEq

/-- The whole pipeline on parsed items, with the classification loop run
in iteration order `order`. -/
def pipeline (items : List Item) (order : List (String × FnDef)) : Output :=
  let ing := ingest items
  let gs := classify ing.imported_functions order
  let em := emitGroups ing.imported_functions ing.functions.length gs
  { moduleFiles := em.files,
    entryFile :=
      match ing.main_function with
      | some mainCode => some (entryChunks ing em mainCode)
      | none => none }

/-- All files a run writes, as (file name, body) pairs, in write order. -/
def allFiles (out : Output) : List (String × List Chunk) :=
  out.moduleFiles ++
    (match out.entryFile with
     | some cs => [("tmp_main.rs", cs)]
     | none => [])

/-- The names of all written files. -/
def fileNames (out : Output) : List String := (allFiles out).map (fun f => f.1)

/-- How many times a function with the given name occurs across the given
files. -/
def fnOccurrences (fname : String) (files : List (String × List Chunk)) : Nat :=
  (files.map (fun f => f.2.countP (fun c =>
    match c with
    | Chunk.fnChunk n _ => n = fname
    | _ => false))).sum

/-- The group key holding a function of the given name, if any. -/
def memberKeyOf (fname : String) : List (String × List (String × String)) → Option String
  | [] => none
  | (k, ms) :: rest =>
    if ms.any (fun m => m.1 = fname) then some k else memberKeyOf fname rest

/-- CLI outcome model: the argument-count check (main.rs lines 30-34) runs
before the input file is read, so a wrong argument count yields the usage
message whatever reading/parsing would have produced; a failed read/parse
is a fatal abort; otherwise the pipeline runs. -/
inductive RunResult where
  | usageExit (msg : String)
  | fatalError
  | completed (out : Output)
deriving DecidableEq

def runProgram (args : List String) (parsed : Option (List Item))
    (order : List (String × FnDef)) : RunResult :=
  if args.length ≠ 2 then RunResult.usageExit "Usage: refactor <input_file>"
  else
    match parsed with
    | none => RunResult.fatalError
    | some items => RunResult.completed (pipeline items order)

/-- Files written by a completed run; the usage path writes nothing. -/
def writtenFiles : RunResult → List (String × List Chunk)
  | RunResult.usageExit _ => []
  | RunResult.fatalError => []
  | RunResult.completed out => allFiles out

/-- Whether chunk `c` occurs in any of the given files. -/
def chunkOccursB (c : Chunk) (files : List (String × List Chunk)) : Bool :=
  files.any (fun f => f.2.any (fun c2 => decide (c2 = c)))

/-- Whether a chunk is the entry-function chunk. -/
def isEntryChunkB : Chunk → Bool
  | Chunk.entryChunk _ => true
  | _ => false

/-!  Concrete inputs used to settle the claims. -/

/-- A file with `main` and one import-free helper: the all-`"general"`
degenerate case. -/
def c1Items : List Item :=
  [Item.fnItem "main" { body := [], text := "fn main code" },
   Item.fnItem "helper" { body := [], text := "fn helper code" }]

/-- A file with an import nobody references and one import-free function. -/
def c2Items : List Item :=
  [Item.useItem (UseTree.path "serde" (UseTree.name "json")) "use serde :: json ;",
   Item.fnItem "main" { body := [], text := "fn main code" },
   Item.fnItem "gamma" { body := [Expr.lit], text := "fn gamma code" }]

/-- Two functions whose bodies reference the same import. -/
def c3Items : List Item :=
  [Item.useItem (UseTree.path "http" (UseTree.name "get")) "use http :: get ;",
   Item.fnItem "main" { body := [], text := "fn main code" },
   Item.fnItem "alpha" { body := [Expr.pathE ["http", "get"]], text := "fn alpha code" },
   Item.fnItem "beta" { body := [Expr.pathE ["http", "get"]], text := "fn beta code" }]

/-- The ingested function map of `c3Items` iterated in the opposite order:
a different but equally legitimate `HashMap` iteration order. -/
def c3OrderB : List (String × FnDef) :=
  [("beta", { body := [Expr.pathE ["http", "get"]], text := "fn beta code" }),
   ("alpha", { body := [Expr.pathE ["http", "get"]], text := "fn alpha code" })]

/-- Two functions with identical non-empty usage sets. -/
def c4Items : List Item :=
  [Item.useItem (UseTree.path "http" (UseTree.name "get")) "use http :: get ;",
   Item.fnItem "main" { body := [], text := "fn main code" },
   Item.fnItem "delta" { body := [Expr.pathE ["http", "get"]], text := "fn delta code" },
   Item.fnItem "epsilon" { body := [Expr.pathE ["http", "get"]], text := "fn epsilon code" }]

def c4Table : List (String × String) := (ingest c4Items).imported_functions

def c4Groups : GroupState := classify c4Table (ingest c4Items).functions

/-- Two import statements that both introduce the root name `http`. -/
def c5Items : List Item :=
  [Item.useItem (UseTree.path "http" (UseTree.name "client")) "use http :: client ;",
   Item.useItem (UseTree.path "http" (UseTree.name "server")) "use http :: server ;",
   Item.fnItem "main" { body := [], text := "fn main code" }]

/-- A file with a function but no `main`. -/
def c6Items : List Item :=
  [Item.fnItem "solo" { body := [], text := "fn solo code" }]

/-- One import and one function whose body references it. -/
def c7Items : List Item :=
  [Item.useItem (UseTree.path "http" (UseTree.name "get")) "use http :: get ;",
   Item.fnItem "main" { body := [], text := "fn main code" },
   Item.fnItem "fetch" { body := [Expr.pathE ["http", "get"]], text := "fn fetch code" }]

def c8Table : List (String × String) := [("http", "use http :: get ;")]

/-- A path expression nested inside a call inside a closure. -/
def c8Body : List Expr :=
  [Expr.closure (Expr.call (Expr.pathE ["http", "get"]) Expr.lit)]

/-!  Auxiliary definitions used by the general theorems. -/

/-- The keys of an association list. -/
def keysOf {α : Type} (m : List (String × α)) : List String := m.map (fun p => p.1)

/-- The member list of a group key (empty when the key is absent). -/
def membersD (k : String) (g : List (String × List (String × String))) :
    List (String × String) :=
  (mapLookup k g).getD []

/-- Whether a function's computed usage set is empty. -/
def usedEmptyB (table : List (String × String)) (f : String × FnDef) : Bool :=
  (computeUsedCrates table f.2.body).isEmpty

/-- A synthetic group key produced while the counter was below `c`. -/
def SynKey (c : Nat) (k : String) : Prop :=
  ∃ i, 1 ≤ i ∧ i < c ∧ k = "group_" ++ toString i

/-- Invariant of the grouping loop state: the counter started at 1 and
only grew; every key is `"general"` or a synthetic key minted below the
current counter; keys are distinct; and every synthetic group holds
exactly one member. -/
structure GroupInv (st : GroupState) : Prop where
  counter_pos : 1 ≤ st.group_counter
  keys_shape : ∀ k ∈ keysOf st.grouped_functions, k = "general" ∨ SynKey st.group_counter k
  keys_nodup : (keysOf st.grouped_functions).Nodup
  singletons : ∀ p ∈ st.grouped_functions, p.1 ≠ "general" → p.2.length = 1

/-- Decimal digit list of a natural number, most significant digit first:
the reference rendering used to reason about `Nat.toString`. -/
def decDigits (n : Nat) : List Char :=
  if n < 10 then [Nat.digitChar n]
  else decDigits (n / 10) ++ [Nat.digitChar (n % 10)]
decreasing_by exact Nat.div_lt_self (by omega) (by omega)

/-!  Theorems settling the claims. -/

/-- C1: the claim says every recorded non-entry function appears exactly
once in the combined output.  On an input whose functions all have empty
usage sets, the code skips the sole `"general"` group and never inlines
its members into `tmp_main.rs`: `helper` is recorded during ingestion but
appears zero times in the union of all written files. -/
theorem c1_helper_recorded_but_dropped :
    mapLookup "helper" (ingest c1Items).functions =
      some { body := [], text := "fn helper code" } ∧
    fnOccurrences "helper" (allFiles (pipeline c1Items (ingest c1Items).functions)) = 0 := by
  decide

/-- C2: with no function referencing any import, zero module artifacts are
written (as claimed), but the functions do not appear inline in the entry
file — they are dropped from the output entirely. -/
theorem c2_no_artifacts_but_functions_dropped :
    (ingest c2Items).functions.countP
        (fun f => !(computeUsedCrates (ingest c2Items).imported_functions f.2.body).isEmpty)
      = 0 ∧
    (pipeline c2Items (ingest c2Items).functions).moduleFiles = [] ∧
    fnOccurrences "gamma" (allFiles (pipeline c2Items (ingest c2Items).functions)) = 0 := by
  decide

/-- C3 counterexample: the classification loop iterates a `HashMap`, whose
iteration order is not fixed across runs.  For the same input text, two
legitimate iteration orders of the same function map produce different
file contents (which function lands in `group_1_mod.rs` swaps). -/
theorem c3_iteration_order_changes_output :
    List.Perm c3OrderB (ingest c3Items).functions ∧
    pipeline c3Items (ingest c3Items).functions ≠ pipeline c3Items c3OrderB := by
  decide

/-- C4 counterexample: `delta` and `epsilon` have identical non-empty
usage sets, yet the code assigns them the distinct keys `group_1` and
`group_2`: the synthetic key is never reused. -/
theorem c4_equal_usage_sets_distinct_keys :
    computeUsedCrates c4Table [Expr.pathE ["http", "get"]] ≠ [] ∧
    memberKeyOf "delta" c4Groups.grouped_functions = some "group_1" ∧
    memberKeyOf "epsilon" c4Groups.grouped_functions = some "group_2" := by
  decide

/-- C5 counterexample: two imports both introduce `http`; the later one
overwrites the earlier in `imported_functions`, and the entry file emits
only the table's values, so the earlier statement appears in no output
file (it is not retained anywhere, contrary to the claim). -/
theorem c5_earlier_duplicate_import_lost :
    chunkOccursB (Chunk.importChunk "use http :: client ;")
      (allFiles (pipeline c5Items (ingest c5Items).functions)) = false ∧
    allFiles (pipeline c5Items (ingest c5Items).functions) =
      [("tmp_main.rs",
        [Chunk.importChunk "use http :: server ;", Chunk.entryChunk "fn main code"])] := by
  decide

/-- C6 counterexample: on an input without a `main` function the run
completes but writes no `tmp_main.rs` at all, so a successful run does not
always produce the reassembled entry file. -/
theorem c6_no_entry_file_without_main :
    (pipeline c6Items (ingest c6Items).functions).entryFile = none ∧
    fileNames (pipeline c6Items (ingest c6Items).functions) = [] := by
  decide

/-- C7: the claim says a module body contains the raw statements of the
group's relevant imports.  `fetch` uses the `http` import and the
group's import set is non-empty, yet its emitted module body holds only the
preamble and the function: the loop looks the set's elements (raw
statement texts) up as keys of `imported_functions` (which is keyed by
root names), so no import is ever emitted. -/
theorem c7_module_lacks_relevant_imports :
    computeUsedCrates (ingest c7Items).imported_functions [Expr.pathE ["http", "get"]] =
      ["use http :: get ;"] ∧
    mapLookup "group_1"
        (classify (ingest c7Items).imported_functions (ingest c7Items).functions).group_imports
      = some ["use http :: get ;"] ∧
    (pipeline c7Items (ingest c7Items).functions).moduleFiles =
      [("group_1_mod.rs", [Chunk.preamble, Chunk.fnChunk "fetch" "fn fetch code"])] := by
  decide

/-- C8: the claim says a successful table lookup adds the import's
introduced name to the usage set.  The visitor looks up the leading
segment `http` (even nested inside a closure and a call) and the lookup
succeeds, but what it inserts is the table's value — the raw statement
text — not the introduced name. -/
theorem c8_usage_set_gets_statement_not_name :
    computeUsedCrates c8Table c8Body = ["use http :: get ;"] ∧
    "http" ∉ computeUsedCrates c8Table c8Body := by
  decide

/-- C9: with an argument count other than 2 the program emits the usage
message and returns: the outcome is the usage exit whatever the input file
would have parsed to, no file is written, and the outcome is not the fatal
error of the later failure paths. -/
theorem c9_wrong_arg_count_prints_usage_and_stops (args : List String)
    (h : args.length ≠ 2) (parsed : Option (List Item)) (order : List (String × FnDef)) :
    runProgram args parsed order = RunResult.usageExit "Usage: refactor <input_file>" ∧
    writtenFiles (runProgram args parsed order) = [] ∧
    runProgram args parsed order ≠ RunResult.fatalError := by
  unfold runProgram
  rw [if_pos h]
  exact ⟨rfl, rfl, fun hc => RunResult.noConfusion hc⟩

/-- C9 witness: the theorem applied to an empty argument list. -/
theorem c9_witness :
    runProgram [] none [] = RunResult.usageExit "Usage: refactor <input_file>" ∧
    writtenFiles (runProgram [] none []) = [] ∧
    runProgram [] none [] ≠ RunResult.fatalError :=
  c9_wrong_arg_count_prints_usage_and_stops [] (by decide) none []

theorem mapLookup_mapInsert_self {α : Type} (k : String) (v : α) (m : List (String × α)) :
    mapLookup k (mapInsert k v m) = some v := by
  induction m with
  | nil => simp [mapInsert, mapLookup]
  | cons p rest ih =>
    obtain ⟨k2, v2⟩ := p
    by_cases h : k2 = k
    · simp [mapInsert, mapLookup, h]
    · simp [mapInsert, mapLookup, h, ih]

theorem ingestItem_useItem_non_path (st : Ingest) (tree : UseTree) (s : String)
    (h : ∀ ident rest, tree ≠ UseTree.path ident rest) :
    ingestItem st (Item.useItem tree s) = st := by
  cases tree with
  | path ident rest => exact absurd rfl (h ident rest)
  | name ident => rfl
  | rename a b => rfl
  | glob => rfl
  | group ts => rfl

theorem pipeline_congr_ingest (l1 l2 : List Item) (order : List (String × FnDef))
    (h : ingest l1 = ingest l2) : pipeline l1 order = pipeline l2 order := by
  unfold pipeline
  rw [h]

/-- C10: only a `use` item whose tree is `UseTree::Path` is recorded:
removing a `use` item of any other shape leaves ingestion — and hence the
entire output — unchanged, while appending a path-shaped `use` makes its
root ident resolve to its statement text in the import table. -/
theorem c10_only_path_uses_recorded :
    (∀ pre post tree s order,
        (∀ ident rest, tree ≠ UseTree.path ident rest) →
        ingest (pre ++ Item.useItem tree s :: post) = ingest (pre ++ post) ∧
        pipeline (pre ++ Item.useItem tree s :: post) order = pipeline (pre ++ post) order) ∧
    (∀ items ident rest s,
        mapLookup ident
          (ingest (items ++ [Item.useItem (UseTree.path ident rest) s])).imported_functions
        = some s) := by
  constructor
  · intro pre post tree s order h
    have hing : ingest (pre ++ Item.useItem tree s :: post) = ingest (pre ++ post) := by
      unfold ingest
      rw [List.foldl_append, List.foldl_append, List.foldl_cons,
        ingestItem_useItem_non_path _ tree s h]
    exact ⟨hing, pipeline_congr_ingest _ _ order hing⟩
  · intro items ident rest s
    have hstep : ingest (items ++ [Item.useItem (UseTree.path ident rest) s]) =
        ingestItem (ingest items) (Item.useItem (UseTree.path ident rest) s) := by
      unfold ingest
      rw [List.foldl_append]
      rfl
    rw [hstep]
    simp [ingestItem, mapLookup_mapInsert_self]

/-- C10 witness: a single-identifier `use foo ;` is ignored — ingesting it
alongside a `main` function gives the same state as not having it. -/
theorem c10_witness :
    ingest [Item.useItem (UseTree.name "foo") "use foo ;",
            Item.fnItem "main" { body := [], text := "fn main code" }] =
      ingest [Item.fnItem "main" { body := [], text := "fn main code" }] :=
  (c10_only_path_uses_recorded.1 []
    [Item.fnItem "main" { body := [], text := "fn main code" }]
    (UseTree.name "foo") "use foo ;" []
    (fun _ _ hC => UseTree.noConfusion hC)).1

/-!  String and number helper lemmas. -/

theorem strData_append (a b : String) : (a ++ b).data = a.data ++ b.data := by
  cases a
  cases b
  rfl

theorem strExt (a b : String) (h : a.data = b.data) : a = b := by
  cases a
  cases b
  exact congrArg String.mk h

theorem decDigits_of_lt (n : Nat) (h : n < 10) : decDigits n = [Nat.digitChar n] := by
  unfold decDigits
  rw [if_pos h]

theorem decDigits_of_ge (n : Nat) (h : ¬n < 10) :
    decDigits n = decDigits (n / 10) ++ [Nat.digitChar (n % 10)] := by
  conv_lhs => unfold decDigits
  rw [if_neg h]

theorem decDigits_ne_nil (n : Nat) : decDigits n ≠ [] := by
  by_cases h : n < 10
  · rw [decDigits_of_lt n h]
    simp
  · rw [decDigits_of_ge n h]
    simp

theorem toDigitsCore_eq_decDigits (fuel : Nat) :
    ∀ (n : Nat) (acc : List Char), n < fuel →
      Nat.toDigitsCore 10 fuel n acc = decDigits n ++ acc := by
  induction fuel with
  | zero => intro n acc h; omega
  | succ f ih =>
    intro n acc h
    simp only [Nat.toDigitsCore]
    by_cases h10 : n / 10 = 0
    · rw [if_pos h10]
      have hn : n < 10 := by omega
      rw [decDigits_of_lt n hn, Nat.mod_eq_of_lt hn]
      rfl
    · rw [if_neg h10]
      have hlt : n / 10 < f := by omega
      rw [ih (n / 10) (Nat.digitChar (n % 10) :: acc) hlt,
        decDigits_of_ge n (by omega)]
      simp

theorem toDigits_eq_decDigits (n : Nat) : Nat.toDigits 10 n = decDigits n := by
  unfold Nat.toDigits
  rw [toDigitsCore_eq_decDigits (n + 1) n [] (Nat.lt_succ_self n)]
  simp

theorem digitChar_inj_lt :
    ∀ a : Nat, a < 10 → ∀ b : Nat, b < 10 → Nat.digitChar a = Nat.digitChar b → a = b := by
  decide

theorem decDigits_inj (m : Nat) : ∀ n : Nat, decDigits m = decDigits n → m = n := by
  induction m using Nat.strong_induction_on with
  | _ m ih =>
    intro n hEq
    by_cases hm : m < 10 <;> by_cases hn : n < 10
    · rw [decDigits_of_lt m hm, decDigits_of_lt n hn] at hEq
      exact digitChar_inj_lt m hm n hn (List.cons.inj hEq).1
    · rw [decDigits_of_lt m hm, decDigits_of_ge n hn] at hEq
      have hlen := congrArg List.length hEq
      simp at hlen
      exact absurd hlen (decDigits_ne_nil (n / 10))
    · rw [decDigits_of_ge m hm, decDigits_of_lt n hn] at hEq
      have hlen := congrArg List.length hEq
      simp at hlen
      exact absurd hlen (decDigits_ne_nil (m / 10))
    · rw [decDigits_of_ge m hm, decDigits_of_ge n hn] at hEq
      obtain ⟨hheads, htails⟩ := List.append_inj' hEq (by simp)
      have hdiv : m / 10 = n / 10 :=
        ih (m / 10) (Nat.div_lt_self (by omega) (by omega)) (n / 10) hheads
      have hmod : m % 10 = n % 10 :=
        digitChar_inj_lt (m % 10) (Nat.mod_lt m (by omega)) (n % 10)
          (Nat.mod_lt n (by omega)) (List.cons.inj htails).1
      omega

theorem natToString_inj (m n : Nat) (h : toString m = toString n) : m = n := by
  apply decDigits_inj
  have hm : (toString m).data = decDigits m := by
    show (Nat.repr m).data = _
    unfold Nat.repr
    rw [toDigits_eq_decDigits]
    rfl
  have hn : (toString n).data = decDigits n := by
    show (Nat.repr n).data = _
    unfold Nat.repr
    rw [toDigits_eq_decDigits]
    rfl
  rw [← hm, ← hn, h]

theorem groupKey_ne_general (s : String) : "group_" ++ s ≠ "general" := by
  intro h
  have hd : "group_".data ++ s.data = "general".data := by
    rw [← strData_append, h]
  have h6 : ("group_".data ++ s.data).take "group_".data.length = "group_".data :=
    List.take_left _ _
  rw [hd] at h6
  revert h6
  decide

theorem groupKey_inj (i j : Nat) (h : "group_" ++ toString i = "group_" ++ toString j) :
    i = j := by
  apply natToString_inj
  have hd := congrArg String.data h
  rw [strData_append, strData_append] at hd
  exact strExt _ _ (List.append_cancel_left hd)

/-!  Association-list lemmas. -/

theorem mapLookup_isSome_iff_mem_keysOf {α : Type} (k : String) (m : List (String × α)) :
    (mapLookup k m).isSome = true ↔ k ∈ keysOf m := by
  induction m with
  | nil => simp [mapLookup, keysOf]
  | cons p rest ih =>
    obtain ⟨k2, v2⟩ := p
    by_cases h : k2 = k
    · subst h
      simp [mapLookup, keysOf]
    · rw [mapLookup, if_neg h, ih]
      constructor
      · intro hm
        exact List.mem_cons_of_mem _ hm
      · intro hm
        rcases List.mem_cons.mp hm with he | hm2
        · exact absurd he.symm h
        · exact hm2

theorem mapLookup_eq_some_mem {α : Type} (k : String) (v : α) (m : List (String × α))
    (h : mapLookup k m = some v) : (k, v) ∈ m := by
  induction m with
  | nil => simp [mapLookup] at h
  | cons p rest ih =>
    obtain ⟨k2, v2⟩ := p
    by_cases hk : k2 = k
    · subst hk
      rw [mapLookup, if_pos rfl] at h
      cases h
      exact List.mem_cons_self _ _
    · rw [mapLookup, if_neg hk] at h
      exact List.mem_cons_of_mem _ (ih h)

theorem mem_mapLookup_of_nodup {α : Type} (m : List (String × α)) (p : String × α)
    (hnd : (keysOf m).Nodup) (hp : p ∈ m) : mapLookup p.1 m = some p.2 := by
  induction m with
  | nil => cases hp
  | cons q rest ih =>
    obtain ⟨k2, v2⟩ := q
    simp only [keysOf, List.map_cons, List.nodup_cons] at hnd
    rcases List.mem_cons.mp hp with rfl | hp2
    · rw [mapLookup, if_pos rfl]
    · have hk : k2 ≠ p.1 := by
        intro he
        apply hnd.1
        subst he
        exact List.mem_map.mpr ⟨p, hp2, rfl⟩
      rw [mapLookup, if_neg hk]
      exact ih hnd.2 hp2

theorem mapLookup_pushMember_self (k : String) (mem : String × String)
    (g : List (String × List (String × String))) :
    mapLookup k (pushMember k mem g) = some ((mapLookup k g).getD [] ++ [mem]) := by
  induction g with
  | nil => simp [pushMember, mapLookup]
  | cons q rest ih =>
    obtain ⟨k2, ms⟩ := q
    by_cases h : k2 = k
    · subst h
      simp [pushMember, mapLookup]
    · simp [pushMember, mapLookup, h, ih]

theorem mapLookup_pushMember_ne (k k2 : String) (mem : String × String)
    (g : List (String × List (String × String))) (h : k2 ≠ k) :
    mapLookup k2 (pushMember k mem g) = mapLookup k2 g := by
  have hne : k ≠ k2 := fun he => h he.symm
  induction g with
  | nil => simp only [pushMember, mapLookup, if_neg hne]
  | cons q rest ih =>
    obtain ⟨k3, ms⟩ := q
    by_cases h3 : k3 = k
    · subst h3
      simp only [pushMember, if_pos rfl, mapLookup, if_neg hne]
    · simp only [pushMember, if_neg h3, mapLookup]
      by_cases h32 : k3 = k2
      · simp only [if_pos h32]
      · simp only [if_neg h32, ih]

theorem mem_keysOf_pushMember (k k2 : String) (mem : String × String)
    (g : List (String × List (String × String))) :
    k2 ∈ keysOf (pushMember k mem g) ↔ k2 ∈ keysOf g ∨ k2 = k := by
  induction g with
  | nil => simp [pushMember, keysOf, eq_comm]
  | cons q rest ih =>
    obtain ⟨k3, ms⟩ := q
    by_cases h3 : k3 = k
    · subst h3
      simp [pushMember, keysOf]
      tauto
    · simp only [pushMember, if_neg h3, keysOf, List.map_cons, List.mem_cons]
      rw [show (rest.map (fun p => p.1)) = keysOf rest from rfl] at *
      rw [show ((pushMember k mem rest).map (fun p => p.1)) = keysOf (pushMember k mem rest)
        from rfl]
      rw [ih]
      tauto

theorem nodup_keysOf_pushMember (k : String) (mem : String × String)
    (g : List (String × List (String × String))) (h : (keysOf g).Nodup) :
    (keysOf (pushMember k mem g)).Nodup := by
  induction g with
  | nil => simp [pushMember, keysOf]
  | cons q rest ih =>
    obtain ⟨k3, ms⟩ := q
    simp only [keysOf, List.map_cons, List.nodup_cons] at h
    by_cases h3 : k3 = k
    · subst h3
      simp only [pushMember, eq_self_iff_true, ite_true, keysOf, List.map_cons,
        List.nodup_cons]
      exact h
    · simp only [pushMember, if_neg h3, keysOf, List.map_cons, List.nodup_cons]
      constructor
      · intro hmem
        rcases (mem_keysOf_pushMember k k3 mem rest).mp (by simpa [keysOf] using hmem) with
          hm | hm
        · exact h.1 (by simpa [keysOf] using hm)
        · exact h3 hm
      · exact ih h.2

theorem pushMember_of_not_mem (k : String) (mem : String × String)
    (g : List (String × List (String × String))) (h : k ∉ keysOf g) :
    pushMember k mem g = g ++ [(k, [mem])] := by
  induction g with
  | nil => rfl
  | cons q rest ih =>
    obtain ⟨k3, ms⟩ := q
    have h3 : k3 ≠ k := by
      intro he
      exact h (by simp [keysOf, he])
    rw [pushMember, if_neg h3, List.cons_append]
    rw [ih (fun hm => h (by simp [keysOf] at hm ⊢; exact Or.inr hm))]

theorem mem_pushMember_cases (k : String) (mem : String × String)
    (g : List (String × List (String × String))) (p : String × List (String × String))
    (hp : p ∈ pushMember k mem g) : p ∈ g ∨ p.1 = k := by
  induction g with
  | nil =>
    simp [pushMember] at hp
    simp [hp]
  | cons q rest ih =>
    obtain ⟨k3, ms⟩ := q
    by_cases h3 : k3 = k
    · subst h3
      rw [pushMember, if_pos rfl] at hp
      rcases List.mem_cons.mp hp with rfl | hmem
      · exact Or.inr rfl
      · exact Or.inl (List.mem_cons_of_mem _ hmem)
    · rw [pushMember, if_neg h3] at hp
      rcases List.mem_cons.mp hp with rfl | hmem
      · exact Or.inl (List.mem_cons_self _ _)
      · rcases ih hmem with hm | hm
        · exact Or.inl (List.mem_cons_of_mem _ hm)
        · exact Or.inr hm

/-!  Grouping-loop lemmas. -/

theorem classifyStep_empty (table : List (String × String)) (st : GroupState)
    (f : String × FnDef) (h : computeUsedCrates table f.2.body = []) :
    classifyStep table st f =
      { st with
        grouped_functions := pushMember "general" (f.1, f.2.text) st.grouped_functions,
        group_imports := extendSet "general" [] st.group_imports } := by
  simp only [classifyStep, h]
  simp

theorem classifyStep_nonempty (table : List (String × String)) (st : GroupState)
    (f : String × FnDef) (h : computeUsedCrates table f.2.body ≠ [])
    (hfresh : ("group_" ++ toString st.group_counter) ∉ keysOf st.grouped_functions) :
    classifyStep table st f =
      { grouped_functions :=
          pushMember ("group_" ++ toString st.group_counter) (f.1, f.2.text)
            st.grouped_functions,
        group_imports :=
          extendSet ("group_" ++ toString st.group_counter)
            (computeUsedCrates table f.2.body) st.group_imports,
        group_counter := st.group_counter + 1 } := by
  have hcont : mapContains ("group_" ++ toString st.group_counter) st.grouped_functions
      = false := by
    rw [mapContains, Bool.eq_false_iff]
    intro hs
    exact hfresh ((mapLookup_isSome_iff_mem_keysOf _ _).mp hs)
  simp only [classifyStep, h]
  simp [h, hcont]

theorem groupInv_fresh (st : GroupState) (hInv : GroupInv st) :
    ("group_" ++ toString st.group_counter) ∉ keysOf st.grouped_functions := by
  intro hk
  rcases hInv.keys_shape _ hk with hgen | ⟨i, _, hi, heq⟩
  · exact groupKey_ne_general _ hgen
  · have := groupKey_inj _ _ heq
    omega

theorem groupInv_step (table : List (String × String)) (st : GroupState)
    (f : String × FnDef) (hInv : GroupInv st) : GroupInv (classifyStep table st f) := by
  by_cases h : computeUsedCrates table f.2.body = []
  · rw [classifyStep_empty table st f h]
    refine ⟨hInv.counter_pos, ?_, ?_, ?_⟩
    · intro k hk
      rcases (mem_keysOf_pushMember _ _ _ _).mp hk with hk2 | rfl
      · exact hInv.keys_shape k hk2
      · exact Or.inl rfl
    · exact nodup_keysOf_pushMember _ _ _ hInv.keys_nodup
    · intro p hp hpne
      rcases mem_pushMember_cases _ _ _ _ hp with hp2 | hp1
      · exact hInv.singletons p hp2 hpne
      · exact absurd hp1 hpne
  · have hfresh := groupInv_fresh st hInv
    rw [classifyStep_nonempty table st f h hfresh,
      pushMember_of_not_mem _ _ _ hfresh]
    refine ⟨by show 1 ≤ st.group_counter + 1; omega, ?_, ?_, ?_⟩
    · intro k hk
      rw [show keysOf (st.grouped_functions ++
            [("group_" ++ toString st.group_counter, [(f.1, f.2.text)])]) =
          keysOf st.grouped_functions ++ ["group_" ++ toString st.group_counter] by
        simp [keysOf]] at hk
      rcases List.mem_append.mp hk with hk2 | hk3
      · rcases hInv.keys_shape k hk2 with hgen | ⟨i, h1, hi, heq⟩
        · exact Or.inl hgen
        · exact Or.inr ⟨i, h1, by show i < st.group_counter + 1; omega, heq⟩
      · simp at hk3
        subst hk3
        exact Or.inr ⟨st.group_counter, hInv.counter_pos,
          by show st.group_counter < st.group_counter + 1; omega, rfl⟩
    · rw [show keysOf (st.grouped_functions ++
            [("group_" ++ toString st.group_counter, [(f.1, f.2.text)])]) =
          keysOf st.grouped_functions ++ ["group_" ++ toString st.group_counter] by
        simp [keysOf]]
      refine List.Nodup.append hInv.keys_nodup (by simp) ?_
      intro a ha hb
      simp at hb
      subst hb
      exact hfresh ha
    · intro p hp hpne
      rcases List.mem_append.mp hp with hp2 | hp3
      · exact hInv.singletons p hp2 hpne
      · simp at hp3
        rw [hp3]
        rfl

theorem groupInv_foldl (table : List (String × String)) (order : List (String × FnDef)) :
    ∀ st : GroupState, GroupInv st → GroupInv (order.foldl (classifyStep table) st) := by
  induction order with
  | nil => intro st h; exact h
  | cons f rest ih =>
    intro st h
    rw [List.foldl_cons]
    exact ih _ (groupInv_step table st f h)

theorem groupInv_init :
    GroupInv { grouped_functions := [], group_imports := [], group_counter := 1 } := by
  refine ⟨le_refl 1, ?_, ?_, ?_⟩
  · intro k hk
    simp [keysOf] at hk
  · simp [keysOf]
  · intro p hp
    simp at hp

theorem groupInv_classify (table : List (String × String))
    (order : List (String × FnDef)) : GroupInv (classify table order) :=
  groupInv_foldl table order _ groupInv_init

theorem foldl_counter (table : List (String × String)) (order : List (String × FnDef)) :
    ∀ st : GroupState, GroupInv st →
      (order.foldl (classifyStep table) st).group_counter =
        st.group_counter + order.countP (fun f => !(usedEmptyB table f)) := by
  induction order with
  | nil => intro st _; simp
  | cons f rest ih =>
    intro st hInv
    rw [List.foldl_cons, List.countP_cons]
    have hInv2 := groupInv_step table st f hInv
    by_cases h : computeUsedCrates table f.2.body = []
    · have hE : usedEmptyB table f = true := by simp [usedEmptyB, h]
      rw [classifyStep_empty table st f h] at hInv2
      rw [classifyStep_empty table st f h, ih _ hInv2]
      simp [hE]
    · have hE : usedEmptyB table f = false := by simp [usedEmptyB, h]
      have hfresh := groupInv_fresh st hInv
      rw [classifyStep_nonempty table st f h hfresh] at hInv2
      rw [classifyStep_nonempty table st f h hfresh, ih _ hInv2]
      simp [hE]
      omega

theorem foldl_genLen (table : List (String × String)) (order : List (String × FnDef)) :
    ∀ st : GroupState, GroupInv st →
      (membersD "general" (order.foldl (classifyStep table) st).grouped_functions).length =
        (membersD "general" st.grouped_functions).length +
          order.countP (usedEmptyB table) := by
  induction order with
  | nil => intro st _; simp
  | cons f rest ih =>
    intro st hInv
    rw [List.foldl_cons, List.countP_cons]
    have hInv2 := groupInv_step table st f hInv
    by_cases h : computeUsedCrates table f.2.body = []
    · have hE : usedEmptyB table f = true := by simp [usedEmptyB, h]
      rw [classifyStep_empty table st f h] at hInv2
      rw [classifyStep_empty table st f h, ih _ hInv2]
      have hlen : membersD "general"
          (pushMember "general" (f.1, f.2.text) st.grouped_functions)
          = membersD "general" st.grouped_functions ++ [(f.1, f.2.text)] := by
        rw [membersD, mapLookup_pushMember_self]
        rfl
      simp [hlen, hE]
      omega
    · have hE : usedEmptyB table f = false := by simp [usedEmptyB, h]
      have hfresh := groupInv_fresh st hInv
      rw [classifyStep_nonempty table st f h hfresh] at hInv2
      rw [classifyStep_nonempty table st f h hfresh, ih _ hInv2]
      have hgen : ("general" : String) ≠ "group_" ++ toString st.group_counter :=
        fun he => groupKey_ne_general _ he.symm
      have hlen : membersD "general"
          (pushMember ("group_" ++ toString st.group_counter) (f.1, f.2.text)
            st.grouped_functions)
          = membersD "general" st.grouped_functions := by
        rw [membersD, mapLookup_pushMember_ne _ _ _ _ hgen, membersD]
      simp [hlen, hE]

theorem foldl_keys (table : List (String × String)) (order : List (String × FnDef)) :
    ∀ st : GroupState, GroupInv st → ∀ k : String,
      (k ∈ keysOf (order.foldl (classifyStep table) st).grouped_functions ↔
        k ∈ keysOf st.grouped_functions ∨
        (k = "general" ∧ 0 < order.countP (usedEmptyB table)) ∨
        (∃ i, st.group_counter ≤ i ∧
          i < st.group_counter + order.countP (fun f => !(usedEmptyB table f)) ∧
          k = "group_" ++ toString i)) := by
  induction order with
  | nil =>
    intro st _ k
    simp only [List.foldl_nil, List.countP_nil, Nat.add_zero]
    constructor
    · exact Or.inl
    · rintro (hk | ⟨_, hc⟩ | ⟨i, h1, h2, _⟩)
      · exact hk
      · omega
      · omega
  | cons f rest ih =>
    intro st hInv k
    rw [List.foldl_cons, List.countP_cons, List.countP_cons]
    have hInv2 := groupInv_step table st f hInv
    by_cases h : computeUsedCrates table f.2.body = []
    · have hE : usedEmptyB table f = true := by simp [usedEmptyB, h]
      rw [classifyStep_empty table st f h] at hInv2
      rw [classifyStep_empty table st f h, ih _ hInv2 k]
      simp only [hE, Bool.not_true, if_true, if_false, Bool.false_eq_true, ite_true,
        ite_false, Nat.add_zero]
      rw [mem_keysOf_pushMember]
      constructor
      · rintro ((hk | rfl) | ⟨hg, hc⟩ | ⟨i, h1, h2, heq⟩)
        · exact Or.inl hk
        · exact Or.inr (Or.inl ⟨rfl, by omega⟩)
        · exact Or.inr (Or.inl ⟨hg, by omega⟩)
        · exact Or.inr (Or.inr ⟨i, h1, by omega, heq⟩)
      · rintro (hk | ⟨rfl, hc⟩ | ⟨i, h1, h2, heq⟩)
        · exact Or.inl (Or.inl hk)
        · exact Or.inl (Or.inr rfl)
        · exact Or.inr (Or.inr ⟨i, h1, by omega, heq⟩)
    · have hE : usedEmptyB table f = false := by simp [usedEmptyB, h]
      have hfresh := groupInv_fresh st hInv
      rw [classifyStep_nonempty table st f h hfresh] at hInv2
      rw [classifyStep_nonempty table st f h hfresh, ih _ hInv2 k]
      simp only [hE, Bool.not_false, if_true, if_false, Bool.false_eq_true, ite_true,
        ite_false, Nat.add_zero]
      rw [mem_keysOf_pushMember]
      constructor
      · rintro ((hk | rfl) | ⟨hg, hc⟩ | ⟨i, h1, h2, heq⟩)
        · exact Or.inl hk
        · exact Or.inr (Or.inr ⟨st.group_counter, le_refl _, by omega, rfl⟩)
        · exact Or.inr (Or.inl ⟨hg, by omega⟩)
        · exact Or.inr (Or.inr ⟨i, by omega, by omega, heq⟩)
      · rintro (hk | ⟨rfl, hc⟩ | ⟨i, h1, h2, heq⟩)
        · exact Or.inl (Or.inl hk)
        · exact Or.inr (Or.inl ⟨rfl, by omega⟩)
        · by_cases hic : i = st.group_counter
          · subst hic
            exact Or.inl (Or.inr heq)
          · exact Or.inr (Or.inr ⟨i, by omega, by omega, heq⟩)

theorem classify_counter (table : List (String × String)) (order : List (String × FnDef)) :
    (classify table order).group_counter =
      1 + order.countP (fun f => !(usedEmptyB table f)) :=
  foldl_counter table order _ groupInv_init

theorem classify_genLen (table : List (String × String)) (order : List (String × FnDef)) :
    (membersD "general" (classify table order).grouped_functions).length =
      order.countP (usedEmptyB table) := by
  have hg := foldl_genLen table order _ groupInv_init
  simpa [membersD, mapLookup] using hg

theorem classify_keys (table : List (String × String)) (order : List (String × FnDef))
    (k : String) :
    k ∈ keysOf (classify table order).grouped_functions ↔
      (k = "general" ∧ 0 < order.countP (usedEmptyB table)) ∨
      (∃ i, 1 ≤ i ∧ i < 1 + order.countP (fun f => !(usedEmptyB table f)) ∧
        k = "group_" ++ toString i) := by
  have hk := foldl_keys table order _ groupInv_init k
  simpa [keysOf] using hk

/-!  Output-assembly lemmas. -/

theorem emitStep_foldl_files (table : List (String × String)) (fnCount : Nat)
    (gimps : List (String × List String)) (l : List (String × List (String × String))) :
    ∀ em : Emission,
      (l.foldl (emitStep table fnCount gimps) em).files =
        em.files ++
          (l.filter (fun g => !decide (g.1 = "general" ∧ g.2.length = fnCount))).map
            (fun g => (sanitize_filename g.1 ++ "_mod" ++ ".rs",
              moduleBody table ((mapLookup g.1 gimps).getD []) g.2)) := by
  induction l with
  | nil => intro em; simp
  | cons g rest ih =>
    intro em
    rw [List.foldl_cons]
    by_cases hskip : g.1 = "general" ∧ g.2.length = fnCount
    · rw [show emitStep table fnCount gimps em g = em by simp [emitStep, hskip]]
      rw [ih em]
      simp only [List.filter_cons]
      rw [if_neg (by simp [hskip])]
    · rw [ih _]
      have hstep : (emitStep table fnCount gimps em g).files =
          em.files ++ [(sanitize_filename g.1 ++ "_mod" ++ ".rs",
            moduleBody table ((mapLookup g.1 gimps).getD []) g.2)] := by
        simp [emitStep, hskip]
      rw [hstep]
      simp only [List.filter_cons]
      rw [if_pos (by simp [hskip]), List.map_cons]
      simp

theorem emitGroups_files (table : List (String × String)) (fnCount : Nat)
    (gs : GroupState) :
    (emitGroups table fnCount gs).files =
      (gs.grouped_functions.filter
        (fun g => !decide (g.1 = "general" ∧ g.2.length = fnCount))).map
        (fun g => (sanitize_filename g.1 ++ "_mod" ++ ".rs",
          moduleBody table ((mapLookup g.1 gs.group_imports).getD []) g.2)) := by
  unfold emitGroups
  rw [emitStep_foldl_files]
  rfl

theorem mem_moduleFileNames (table : List (String × String)) (fnCount : Nat)
    (gs : GroupState) (hInv : GroupInv gs) (nm : String) :
    nm ∈ (emitGroups table fnCount gs).files.map (fun f => f.1) ↔
      (∃ k ∈ keysOf gs.grouped_functions,
        ¬(k = "general" ∧ (membersD k gs.grouped_functions).length = fnCount) ∧
        nm = sanitize_filename k ++ "_mod" ++ ".rs") := by
  rw [emitGroups_files, List.map_map]
  constructor
  · intro hmem
    rcases List.mem_map.mp hmem with ⟨g, hg, hnm⟩
    rcases List.mem_filter.mp hg with ⟨hgmem, hcond⟩
    refine ⟨g.1, List.mem_map.mpr ⟨g, hgmem, rfl⟩, ?_, hnm.symm⟩
    have hLk := mem_mapLookup_of_nodup _ g hInv.keys_nodup hgmem
    rw [membersD, hLk]
    intro hand
    have hb : g.2.length = fnCount := by simpa using hand.2
    simp [hand.1, hb] at hcond
  · rintro ⟨k, hk, hcond, rfl⟩
    have hsome : (mapLookup k gs.grouped_functions).isSome = true :=
      (mapLookup_isSome_iff_mem_keysOf _ _).mpr hk
    obtain ⟨ms, hms⟩ := Option.isSome_iff_exists.mp hsome
    have hmem := mapLookup_eq_some_mem _ _ _ hms
    apply List.mem_map.mpr
    refine ⟨(k, ms), List.mem_filter.mpr ⟨hmem, ?_⟩, rfl⟩
    rw [membersD, hms] at hcond
    simp only [Bool.not_eq_true', decide_eq_false_iff_not]
    exact hcond

theorem mem_fileNames_characterization (items : List Item) (order : List (String × FnDef))
    (nm : String) :
    nm ∈ fileNames (pipeline items order) ↔
      ((0 < order.countP (usedEmptyB (ingest items).imported_functions) ∧
        order.countP (usedEmptyB (ingest items).imported_functions) ≠
          (ingest items).functions.length ∧
        nm = sanitize_filename "general" ++ "_mod" ++ ".rs") ∨
       (∃ i, 1 ≤ i ∧
          i < 1 + order.countP
            (fun f => !(usedEmptyB (ingest items).imported_functions f)) ∧
          nm = sanitize_filename ("group_" ++ toString i) ++ "_mod" ++ ".rs") ∨
       ((ingest items).main_function.isSome ∧ nm = "tmp_main.rs")) := by
  have hInv := groupInv_classify (ingest items).imported_functions order
  have hsplit : fileNames (pipeline items order) =
      (emitGroups (ingest items).imported_functions (ingest items).functions.length
        (classify (ingest items).imported_functions order)).files.map (fun f => f.1) ++
      (match (ingest items).main_function with
       | some _ => ["tmp_main.rs"]
       | none => []) := by
    simp only [fileNames, allFiles, pipeline]
    cases hm : (ingest items).main_function with
    | none => simp [hm]
    | some m => simp [hm]
  rw [hsplit, List.mem_append,
    mem_moduleFileNames _ _ _ hInv]
  constructor
  · rintro (⟨k, hk, hcond, rfl⟩ | hentry)
    · rcases (classify_keys _ order k).mp hk with ⟨hkgen, hpos⟩ | ⟨i, h1, hi, hkeq⟩
      · subst hkgen
        refine Or.inl ⟨hpos, ?_, rfl⟩
        intro heq
        apply hcond
        refine ⟨rfl, ?_⟩
        rw [classify_genLen]
        exact heq
      · subst hkeq
        exact Or.inr (Or.inl ⟨i, h1, hi, rfl⟩)
    · cases hm : (ingest items).main_function with
      | none =>
        rw [hm] at hentry
        simp at hentry
      | some m =>
        rw [hm] at hentry
        simp at hentry
        exact Or.inr (Or.inr ⟨rfl, hentry⟩)
  · rintro (⟨hpos, hneq, rfl⟩ | ⟨i, h1, hi, rfl⟩ | ⟨hmain, rfl⟩)
    · refine Or.inl ⟨"general",
        (classify_keys _ order "general").mpr (Or.inl ⟨rfl, hpos⟩), ?_, rfl⟩
      intro hand
      exact hneq ((classify_genLen (ingest items).imported_functions order).symm.trans
        hand.2)
    · refine Or.inl ⟨"group_" ++ toString i,
        (classify_keys _ order _).mpr (Or.inr ⟨i, h1, hi, rfl⟩), ?_, rfl⟩
      intro hand
      exact groupKey_ne_general _ hand.1
    · right
      cases hm : (ingest items).main_function with
      | none =>
        rw [hm] at hmain
        simp at hmain
      | some m => simp

theorem modName_ne_tmpMain (s : String) : s ++ "_mod" ++ ".rs" ≠ "tmp_main.rs" := by
  intro h
  have hd : s.data ++ ("_mod".data ++ ".rs".data) = "tmp_main.rs".data := by
    rw [← List.append_assoc, ← strData_append, ← strData_append, h]
  have hr := congrArg List.reverse hd
  rw [List.reverse_append] at hr
  have h7 : (("_mod".data ++ ".rs".data).reverse ++ s.data.reverse).take
      ("_mod".data ++ ".rs".data).reverse.length = ("_mod".data ++ ".rs".data).reverse :=
    List.take_left _ _
  rw [hr] at h7
  revert h7
  decide

/-- C3 (amended): a run's output is only determined up to the `HashMap`
iteration order; what survives order changes is the shape of the output:
for any two iteration orders of the ingested function map, the two runs
produce the same set of output file names and the same set of group keys
(file contents may differ, as the counterexample shows). -/
theorem c3_amended_stable_names_and_keys (items : List Item)
    (o1 o2 : List (String × FnDef))
    (h1 : List.Perm o1 (ingest items).functions)
    (h2 : List.Perm o2 (ingest items).functions) :
    (∀ nm, nm ∈ fileNames (pipeline items o1) ↔ nm ∈ fileNames (pipeline items o2)) ∧
    (∀ k, k ∈ keysOf (classify (ingest items).imported_functions o1).grouped_functions ↔
        k ∈ keysOf (classify (ingest items).imported_functions o2).grouped_functions) := by
  have hp : List.Perm o1 o2 := h1.trans h2.symm
  have hc1 : o1.countP (usedEmptyB (ingest items).imported_functions) =
      o2.countP (usedEmptyB (ingest items).imported_functions) := hp.countP_eq _
  have hc2 : o1.countP (fun f => !(usedEmptyB (ingest items).imported_functions f)) =
      o2.countP (fun f => !(usedEmptyB (ingest items).imported_functions f)) :=
    hp.countP_eq _
  constructor
  · intro nm
    rw [mem_fileNames_characterization items o1 nm,
      mem_fileNames_characterization items o2 nm, hc1, hc2]
  · intro k
    rw [classify_keys, classify_keys, hc1, hc2]

/-- C3 witness: the stable-shape theorem applied to the two concrete
iteration orders of the counterexample. -/
theorem c3_amended_witness :
    "group_1_mod.rs" ∈ fileNames (pipeline c3Items c3OrderB) :=
  ((c3_amended_stable_names_and_keys c3Items (ingest c3Items).functions c3OrderB
      (List.Perm.refl _) (by decide)).1 "group_1_mod.rs").mp (by decide)

/-- C4 (amended): the synthetic key is never reused: the counter advances
once for every function with a non-empty usage set, and every group other
than `"general"` holds exactly one member — so two functions with
identical non-empty usage sets land in distinct singleton groups. -/
theorem c4_amended_fresh_singleton_groups (table : List (String × String))
    (order : List (String × FnDef)) :
    (classify table order).group_counter =
      1 + order.countP (fun f => !(usedEmptyB table f)) ∧
    (∀ p ∈ (classify table order).grouped_functions, p.1 ≠ "general" → p.2.length = 1) :=
  ⟨classify_counter table order, (groupInv_classify table order).singletons⟩

/-- C4 witness: on the counterexample input, `delta`'s group `group_1` is
a singleton, per the amended theorem. -/
theorem c4_amended_witness :
    ("group_1", [("delta", "fn delta code")]) ∈ c4Groups.grouped_functions ∧
    (("group_1", [("delta", "fn delta code")]) :
        String × List (String × String)).2.length = 1 :=
  ⟨by decide,
    (c4_amended_fresh_singleton_groups c4Table (ingest c4Items).functions).2
      ("group_1", [("delta", "fn delta code")]) (by decide) (by decide)⟩

/-- C5 (amended): what the entry file retains is exactly the import
table's values: when the input has a `main` function, every statement that
owns a table entry (the last path-form `use` per introduced root name)
appears in the entry file's import block; statements whose name was
overwritten, and non-path-form `use` items, appear in no output file. -/
theorem c5_amended_entry_retains_table_values (items : List Item)
    (order : List (String × FnDef)) (m : String)
    (h : (ingest items).main_function = some m) :
    ∃ cs, (pipeline items order).entryFile = some cs ∧
      ∀ kv ∈ (ingest items).imported_functions, Chunk.importChunk kv.2 ∈ cs := by
  refine ⟨entryChunks (ingest items)
    (emitGroups (ingest items).imported_functions (ingest items).functions.length
      (classify (ingest items).imported_functions order)) m, ?_, ?_⟩
  · simp only [pipeline]
    rw [h]
  · intro kv hkv
    unfold entryChunks
    apply List.mem_append_left
    apply List.mem_append_left
    apply List.mem_append_left
    apply List.mem_append_left
    exact List.mem_map.mpr ⟨kv, hkv, rfl⟩

/-- C5 witness: on the duplicate-import input, the surviving table value
(the later statement) is retained in the entry file. -/
theorem c5_amended_witness :
    ∃ cs, (pipeline c5Items []).entryFile = some cs ∧
      Chunk.importChunk "use http :: server ;" ∈ cs := by
  obtain ⟨cs, hcs, hall⟩ :=
    c5_amended_entry_retains_table_values c5Items [] "fn main code" (by decide)
  exact ⟨cs, hcs, hall ("http", "use http :: server ;") (by decide)⟩

/-- C6 (amended): on every input that does contain the entry function, the
run writes exactly one file named `tmp_main.rs`, and the entry function's
text is its last element and occurs exactly once in it. -/
theorem c6_amended_entry_last_when_main_exists (items : List Item)
    (order : List (String × FnDef)) (m : String)
    (h : (ingest items).main_function = some m) :
    (fileNames (pipeline items order)).count "tmp_main.rs" = 1 ∧
    ∃ cs, (pipeline items order).entryFile = some cs ∧
      cs.getLast? = some (Chunk.entryChunk m) ∧
      cs.countP isEntryChunkB = 1 := by
  have hsplit : fileNames (pipeline items order) =
      (emitGroups (ingest items).imported_functions (ingest items).functions.length
        (classify (ingest items).imported_functions order)).files.map (fun f => f.1) ++
      ["tmp_main.rs"] := by
    simp only [fileNames, allFiles, pipeline]
    rw [h]
    simp
  constructor
  · rw [hsplit, List.count_append]
    have hzero : ((emitGroups (ingest items).imported_functions
        (ingest items).functions.length
        (classify (ingest items).imported_functions order)).files.map
          (fun f => f.1)).count "tmp_main.rs" = 0 := by
      rw [List.count_eq_zero]
      intro hmem
      rw [emitGroups_files, List.map_map] at hmem
      rcases List.mem_map.mp hmem with ⟨g, _, hnm⟩
      exact modName_ne_tmpMain (sanitize_filename g.1) hnm
    rw [hzero]
    rfl
  · refine ⟨entryChunks (ingest items)
      (emitGroups (ingest items).imported_functions (ingest items).functions.length
        (classify (ingest items).imported_functions order)) m, ?_, ?_, ?_⟩
    · simp only [pipeline]
      rw [h]
    · unfold entryChunks
      rw [show ∀ a b c d e : List Chunk, a ++ b ++ c ++ d ++ e = (a ++ b ++ c ++ d) ++ e
        from fun a b c d e => rfl]
      exact List.getLast?_concat _
    · unfold entryChunks
      simp only [List.countP_append, List.countP_map]
      have z1 : List.countP (isEntryChunkB ∘ fun p : String × String =>
          Chunk.importChunk p.2) (ingest items).imported_functions = 0 :=
        List.countP_eq_zero.mpr (fun a _ => by simp [Function.comp, isEntryChunkB])
      have z2 : List.countP (isEntryChunkB ∘ Chunk.otherChunk)
          (ingest items).other_items = 0 :=
        List.countP_eq_zero.mpr (fun a _ => by simp [Function.comp, isEntryChunkB])
      have z3 : ∀ l : List String, List.countP (isEntryChunkB ∘ Chunk.modDecl) l = 0 :=
        fun l => List.countP_eq_zero.mpr (fun a _ => by simp [Function.comp, isEntryChunkB])
      have z4 : ∀ l : List String, List.countP (isEntryChunkB ∘ Chunk.useDecl) l = 0 :=
        fun l => List.countP_eq_zero.mpr (fun a _ => by simp [Function.comp, isEntryChunkB])
      rw [z1, z2, z3 _, z4 _]
      simp [isEntryChunkB]

/-- C6 witness: the amended theorem applied to the degenerate input that
has a `main` function. -/
theorem c6_amended_witness :
    (fileNames (pipeline c1Items (ingest c1Items).functions)).count "tmp_main.rs" = 1 ∧
    ∃ cs, (pipeline c1Items (ingest c1Items).functions).entryFile = some cs ∧
      cs.getLast? = some (Chunk.entryChunk "fn main code") ∧
      cs.countP isEntryChunkB = 1 :=
  c6_amended_entry_last_when_main_exists c1Items (ingest c1Items).functions "fn main code"
    (by decide)

end Refactor
